import Mathlib

/-!
Shallow embedding of `src/backend/tasks/scoring.py` (task-analyzer).

Modelling conventions:
* Python `float` values are modelled as exact rationals (`ℚ`); the spec
  treats scores as real numbers and all constants in the source are
  decimal literals, which `ℚ` represents exactly.
* Python `datetime.date` values are modelled as integers (ordinal day
  numbers); `(due - today).days` becomes integer subtraction.  The ambient
  `date.today()` is lifted to an explicit `today : Int` parameter.
* Python dicts (the task map) are modelled as association lists in
  insertion order; updating an existing key keeps its position and
  replaces the value, exactly as CPython dicts do.
* Python's builtin `round(x, 3)` is modelled as `round (1000*x) / 1000`
  (round-half-up on the exact rational); the two agree away from exact
  half-thousandth boundaries, and no claim here depends on a boundary.
* String interpolation of numbers is modelled with `toString`, an
  injective rendering standing in for Python's `str`.
* `list.sort` (a stable sort by a total preorder key) is modelled by a
  stable insertion sort `sortS`; a stable sort by a total preorder has a
  unique result, so any stable implementation is a faithful model.
-/

/- Batteries marks the `Rat` arithmetic operations `@[irreducible]`, which
blocks `decide` on concrete rational computations; restore the default
reducibility so concrete runs of the pipeline can be evaluated by the
kernel. -/
set_option allowUnsafeReducibility true
attribute [semireducible] Rat.add Rat.mul Rat.inv Rat.sub Rat.ofScientific

set_option maxRecDepth 20000

namespace TaskAnalyzer

/-- A raw input task dict, as accepted by `score_tasks` (`raw.get(...)`
fields are optional). -/
structure RawTask where
  id : Option Int
  title : String
  due_date : Option Int
  estimated_hours : Option ℚ
  importance : Option Int
  dependencies : Option (List Int)
deriving DecidableEq, Repr

/-- Model of `TaskData` from scoring.py: the normalized internal record. -/
structure TaskData where
  id : Int
  title : String
  due_date : Option Int
  estimated_hours : ℚ
  importance : Int
  dependencies : List Int
  issues : List String
  cycle_member : Bool
deriving DecidableEq, Repr

/-- The task map `Dict[int, TaskData]`, as an insertion-ordered
association list. -/
abbrev TaskMap := List (Int × TaskData)

/-- Keys of the task map, in insertion order. -/
def keysOf (m : TaskMap) : List Int := m.map (·.1)

/-- CPython dict assignment `task_map[tid] = task`: replaces in place if
the key exists (keeping its position), otherwise appends. -/
def insertAssoc (m : TaskMap) (k : Int) (v : TaskData) : TaskMap :=
  if m.any (fun p => p.1 = k) then
    m.map (fun p => if p.1 = k then (k, v) else p)
  else m ++ [(k, v)]

/-- The `TaskData(...)` constructor call in `_build_task_map`, with the
`raw.get` defaults (estimated_hours 1.0, importance 5, dependencies []). -/
def mkTask (tid : Int) (r : RawTask) : TaskData :=
  { id := tid
    title := r.title
    due_date := r.due_date
    estimated_hours := r.estimated_hours.getD 1
    importance := r.importance.getD 5
    dependencies := r.dependencies.getD []
    issues := []
    cycle_member := false }

/-- First loop of `_build_task_map`: assign ids (synthetic counter
starting at 1 for missing ids) and fill the map. -/
def buildRawAux : List RawTask → TaskMap → Int → TaskMap
  | [], m, _ => m
  | r :: rest, m, nid =>
    match r.id with
    | some tid => buildRawAux rest (insertAssoc m tid (mkTask tid r)) nid
    | none => buildRawAux rest (insertAssoc m nid (mkTask nid r)) (nid + 1)

def buildRaw (tasks : List RawTask) : TaskMap := buildRawAux tasks [] 1

/-- The ids assigned to the input records, in input order (explicit id,
or the synthetic counter value). -/
def assignedIdsAux : List RawTask → Int → List Int
  | [], _ => []
  | r :: rest, nid =>
    match r.id with
    | some tid => tid :: assignedIdsAux rest nid
    | none => nid :: assignedIdsAux rest (nid + 1)

def assignedIds (tasks : List RawTask) : List Int := assignedIdsAux tasks 1

/-- The issue string appended for a pruned unknown dependency. -/
def unknownMsg (d : Int) : String :=
  "Unknown dependency id " ++ toString d ++ " ignored."

/-- Second loop of `_build_task_map`: prune dependencies whose target is
not a key of the map, appending one issue per pruned reference. -/
def cleanTask (ks : List Int) (t : TaskData) : TaskData :=
  { t with
    dependencies := t.dependencies.filter (fun d => d ∈ ks)
    issues := t.issues ++ (t.dependencies.filter (fun d => d ∉ ks)).map unknownMsg }

def cleanMap (m : TaskMap) : TaskMap :=
  m.map (fun p => (p.1, cleanTask (keysOf m) p.2))

/-- Model of `_build_task_map`: both loops. -/
def buildTaskMap (tasks : List RawTask) : TaskMap := cleanMap (buildRaw tasks)

/-- The lookup `task_map[tid].dependencies` made by `dfs`; total via `[]`
for a missing key, which never occurs on cleaned maps. -/
def depsOf (m : TaskMap) (tid : Int) : List Int :=
  match m.find? (fun p => p.1 = tid) with
  | some p => p.2.dependencies
  | none => []

/-- The recursive `dfs` of `_detect_cycles`, with explicit state and a fuel
bound on recursion depth (the Python recursion is proved to stay within
`|task_map| + 1` nested calls; see `detectCycles_isSome_of_closed`).
`visited` and `stack` are the two sets; `marked` collects the ids whose
`cycle_member` flag has been set (only its membership is ever consulted,
so duplicate entries are immaterial).  Returns the updated
`(visited, marked)`; the stack is passed down and popped implicitly.
The `for dep in ...` loop is a fold over the dependency list.
-/
def dfs : Nat → TaskMap → Int → List Int → List Int → List Int →
    Option (List Int × List Int)
  | 0, _, _, _, _, _ => none
  | fuel + 1, m, tid, visited, stack, marked =>
    if tid ∈ stack then
      -- cycle found: mark every id currently on the stack
      some (visited, marked ++ stack)
    else if tid ∈ visited then
      some (visited, marked)
    else
      (depsOf m tid).foldl
        (fun acc d => match acc with
          | none => none
          | some (v, mk) => dfs fuel m d v (tid :: stack) mk)
        (some (tid :: visited, marked))

/-- The `for dep in task_map[tid].dependencies: dfs(dep)` loop of `dfs`,
as a standalone function (`dfs_expand` relates the two). -/
def dfsList (fuel : Nat) (m : TaskMap) (ds : List Int)
    (visited stack marked : List Int) : Option (List Int × List Int) :=
  ds.foldl
    (fun acc d => match acc with
      | none => none
      | some (v, mk) => dfs fuel m d v stack mk)
    (some (visited, marked))

/-- The outer loop of `_detect_cycles` over all keys not yet visited. -/
def detectCyclesAux : TaskMap → List Int → List Int → List Int →
    Option (List Int × List Int)
  | _, [], visited, marked => some (visited, marked)
  | m, k :: ks, visited, marked =>
    if k ∈ visited then detectCyclesAux m ks visited marked
    else
      match dfs (m.length + 1) m k visited [] marked with
      | none => none
      | some (v, mk) => detectCyclesAux m ks v mk

/-- Model of `_detect_cycles`, returning the set of ids marked as cycle members. -/
def detectCycles (m : TaskMap) : Option (List Int) :=
  (detectCyclesAux m (keysOf m) [] []).map (·.2)

/-- The issue string appended to every marked task. -/
def cycleMsg : String := "Circular dependency detected."

/-- Apply the mutations `_detect_cycles` performs on marked tasks:
set `cycle_member` and append the cycle issue once. -/
def applyCycles (m : TaskMap) (marked : List Int) : TaskMap :=
  m.map (fun p =>
    if p.1 ∈ marked then
      (p.1, { p.2 with
              cycle_member := true
              issues := if cycleMsg ∈ p.2.issues then p.2.issues
                        else p.2.issues ++ [cycleMsg] })
    else p)

/-- The task map as `score_tasks` sees it after `_detect_cycles`. -/
def appliedMap (tasks : List RawTask) : TaskMap :=
  let m := buildTaskMap tasks
  applyCycles m ((detectCycles m).getD [])

/-- Model of `_compute_reverse_dependencies` plus the `reverse_deps.get(t.id, 0)`
read: how many (cleaned) dependency declarations name `d`; ids that are
not keys get the default 0. -/
def revCount (m : TaskMap) (d : Int) : Nat :=
  if d ∈ keysOf m then (m.map (fun p => p.2.dependencies.count d)).sum else 0

/-- Model of `_urgency_score`. -/
def urgencyScore (due : Option Int) (today : Int) : ℚ :=
  match due with
  | none => 0.3
  | some d =>
    let delta_days : Int := d - today
    if delta_days < 0 then 1.2
    else max 0.4 (1 - (delta_days : ℚ) / 30)

/-- Model of `_importance_score`. -/
def importanceScore (importance : Int) : ℚ :=
  ((max 1 (min importance 10) : Int) : ℚ) / 10

/-- Model of `_effort_desirability`. -/
def effortDesirability (estimated_hours : ℚ) : ℚ :=
  let h := if estimated_hours ≤ 0 then 1 else estimated_hours
  1 / (1 + h / 4)

/-- Model of `_dependency_score`. -/
def dependencyScore (num_dependents : Nat) : ℚ :=
  if num_dependents ≤ 0 then 0
  else min 1 (0.3 + 0.1 * (num_dependents : ℚ))

/-- Model of `_priority_label`. -/
def priorityLabel (score : ℚ) : String :=
  if score ≥ 0.9 then "High"
  else if score ≥ 0.6 then "Medium"
  else "Low"

/-- Model of `_compute_score_for_strategy`. -/
def computeScoreForStrategy (strategy : String)
    (urgency importance effort dependency : ℚ)
    (overdue in_cycle : Bool) : ℚ :=
  let base :=
    if strategy = "fastest_wins" then
      0.5 * effort + 0.2 * urgency + 0.2 * importance + 0.1 * dependency
    else if strategy = "high_impact" then
      0.6 * importance + 0.2 * urgency + 0.2 * dependency
    else if strategy = "deadline_driven" then
      0.6 * urgency + 0.2 * importance + 0.1 * effort + 0.1 * dependency
    else
      0.35 * urgency + 0.35 * importance + 0.15 * effort + 0.15 * dependency
  let base := base + (if overdue then 0.1 else 0)
  let base := base - (if in_cycle then 0.1 else 0)
  max 0 (min base 1.5)

/-- The overdue test `bool(t.due_date and t.due_date < today)`. -/
def isOverdue (due : Option Int) (today : Int) : Bool :=
  match due with
  | some d => d < today
  | none => false

/-- Python `round(x, 3)` on the exact rational. -/
def round3 (x : ℚ) : ℚ := ((round (1000 * x) : ℤ) : ℚ) / 1000

/-- The per-task score computed in the body of `score_tasks`. -/
def taskScore (strategy : String) (today : Int) (due : Option Int)
    (importance : Int) (hours : ℚ) (ndeps : Nat) (cyc : Bool) : ℚ :=
  computeScoreForStrategy strategy
    (urgencyScore due today) (importanceScore importance)
    (effortDesirability hours) (dependencyScore ndeps)
    (isOverdue due today) cyc

/-- The strategy-name clause of the explanation. -/
def strategyClause (strategy : String) : String :=
  if strategy = "fastest_wins" then
    "Strategy: Fastest Wins (favoring low effort)."
  else if strategy = "high_impact" then
    "Strategy: High Impact (favoring importance)."
  else if strategy = "deadline_driven" then
    "Strategy: Deadline Driven (favoring due date)."
  else
    "Strategy: Smart Balance (balancing all factors)."

/-- ISO rendering of a (modelled) date, an injective stand-in for
`date.isoformat()`. -/
def isoDate (d : Int) : String := toString d

/-- The effort clause of the explanation (reports the stored raw value). -/
def effortClause (hours : ℚ) : String :=
  "Estimated effort: " ++ toString hours ++ "h."

/-- The blocking clause of the explanation. -/
def blocksClause (n : Nat) : String :=
  "Blocks " ++ toString n ++ " other task(s)."

/-- The list `explanation_parts` as assembled in `score_tasks`. -/
def explanationParts (strategy : String) (today : Int) (t : TaskData)
    (num_dependents : Nat) : List String :=
  (if isOverdue t.due_date today then ["Overdue task (higher urgency)."]
   else match t.due_date with
        | some d => ["Due on " ++ isoDate d ++ "."]
        | none => [])
  ++ ["Importance: " ++ toString t.importance ++ "/10."]
  ++ [effortClause t.estimated_hours]
  ++ (if num_dependents > 0 then [blocksClause num_dependents] else [])
  ++ [strategyClause strategy]
  ++ (if t.cycle_member then
        ["Part of a circular dependency (slightly penalized)."] else [])

/-- The output dict `result_task` of `score_tasks`. -/
structure ScoredTask where
  id : Int
  title : String
  due_date : Option Int
  estimated_hours : ℚ
  importance : Int
  dependencies : List Int
  score : ℚ
  priority_label : String
  issues : List String
  explanation : String
deriving DecidableEq, Repr

/-- One iteration of the scoring loop: the `(score, result_task)` pair
appended to `scored`. -/
def scoreOne (strategy : String) (today : Int) (m : TaskMap) (t : TaskData) :
    ℚ × ScoredTask :=
  let nd := revCount m t.id
  let score := taskScore strategy today t.due_date t.importance
    t.estimated_hours nd t.cycle_member
  (score,
   { id := t.id
     title := t.title
     due_date := t.due_date
     estimated_hours := t.estimated_hours
     importance := t.importance
     dependencies := t.dependencies
     score := round3 score
     priority_label := priorityLabel score
     issues := t.issues
     explanation := String.intercalate " " (explanationParts strategy today t nd) })

/-- The `scored` list before sorting, in map insertion order. -/
def scoredPairs (tasks : List RawTask) (strategy : String) (today : Int) :
    List (ℚ × ScoredTask) :=
  let m := appliedMap tasks
  m.map (fun p => scoreOne strategy today m p.2)

/-- Ascending comparison of the `due_date or date.max` sort key:
a missing due date sorts as the latest possible date. -/
def dueKeyLt (x y : Option Int) : Bool :=
  match x, y with
  | some u, some v => u < v
  | some _, none => true
  | none, _ => false

/-- The sort key comparison of `scored.sort(key=...)`: unrounded score
descending, then due date ascending (missing last), then importance
descending.  `sortLe a b` means `a` may precede `b`. -/
def sortLe (a b : ℚ × ScoredTask) : Bool :=
  decide (b.1 < a.1) ||
    (decide (a.1 = b.1) &&
      (dueKeyLt a.2.due_date b.2.due_date ||
        (decide (a.2.due_date = b.2.due_date) &&
          decide (b.2.importance ≤ a.2.importance))))

/-- Stable insertion: place `x` before the first element `y` with
`le x y`. -/
def insertS (le : α → α → Bool) (x : α) : List α → List α
  | [] => [x]
  | y :: ys => if le x y then x :: y :: ys else y :: insertS le x ys

/-- Stable insertion sort, modelling Python's stable `list.sort`. -/
def sortS (le : α → α → Bool) : List α → List α
  | [] => []
  | x :: xs => insertS le x (sortS le xs)

/-- The sorted `scored` list. -/
def rankedPairs (tasks : List RawTask) (strategy : String) (today : Int) :
    List (ℚ × ScoredTask) :=
  sortS sortLe (scoredPairs tasks strategy today)

/-- Model of `score_tasks`. -/
def score_tasks (tasks : List RawTask) (strategy : String) (today : Int) :
    List ScoredTask :=
  (rankedPairs tasks strategy today).map (·.2)

/-! ### Auxiliary predicates and concrete inputs used by the claims -/

/-- Every dependency of every task in the map refers to a key of the map
(the invariant `_build_task_map` establishes before `_detect_cycles`). -/
def closedMap (m : TaskMap) : Prop :=
  ∀ p ∈ m, ∀ d ∈ p.2.dependencies, d ∈ keysOf m

/-- Number of keys of `m` not yet visited (the measure showing the DFS
recursion depth is bounded). -/
def unvis (m : TaskMap) (visited : List Int) : Nat :=
  ((keysOf m).filter (fun k => decide (k ∉ visited))).length

/-- Invariant of the cycle detector: every fully processed (visited and
popped) task that depends on itself has been marked. -/
def SelfMarked (m : TaskMap) (visited stack marked : List Int) : Prop :=
  ∀ k ∈ visited, k ∉ stack → k ∈ depsOf m k → k ∈ marked

/-- The ranking order on the `(unrounded score, result)` pairs, stated in
the claim's vocabulary: unrounded score descending, then due date
ascending (a missing due date last), then importance descending. -/
def rankRel (a b : ℚ × ScoredTask) : Prop :=
  b.1 < a.1 ∨
    (a.1 = b.1 ∧ (dueKeyLt a.2.due_date b.2.due_date = true ∨
      (a.2.due_date = b.2.due_date ∧ b.2.importance ≤ a.2.importance)))

/-- The ordering claimed in C3: by the *output* (rounded) `score` field
descending, then due date ascending (missing last), then importance
descending. -/
def roundedRel (u v : ScoredTask) : Prop :=
  v.score < u.score ∨
    (u.score = v.score ∧ (dueKeyLt u.due_date v.due_date = true ∨
      (u.due_date = v.due_date ∧ v.importance ≤ u.importance)))

instance (u v : ScoredTask) : Decidable (roundedRel u v) := by
  unfold roundedRel; exact inferInstance

/-- A placeholder `ScoredTask` used as the default of `headD`/`getD` in
concrete statements. -/
def junkScored : ScoredTask :=
  ⟨0, "", none, 0, 0, [], 0, "", [], ""⟩

/-- A placeholder map entry used as the default of `headD`/`getD` in
concrete statements. -/
def junkEntry : Int × TaskData :=
  (0, ⟨0, "", none, 0, 0, [], [], false⟩)

/-- The combination used by the `smart_balance` branch (and by every
unrecognized strategy string). -/
def smartBalanceScore (u i e d : ℚ) (od cyc : Bool) : ℚ :=
  max 0 (min (0.35 * u + 0.35 * i + 0.15 * e + 0.15 * d
    + (if od then 0.1 else 0) - (if cyc then 0.1 else 0)) 1.5)

/-- The dependency ring 1→2→3→1 from the spec's cycle-detection property. -/
def ringTasks : List RawTask :=
  [⟨some 1, "A", none, some 1, some 5, some [2]⟩,
   ⟨some 2, "B", none, some 1, some 5, some [3]⟩,
   ⟨some 3, "C", none, some 1, some 5, some [1]⟩]

/-- Two records whose assigned ids collide: the second (id omitted)
receives synthetic id 1, overwriting the first. -/
def dupTasks : List RawTask :=
  [⟨some 1, "A", none, none, none, none⟩,
   ⟨none, "B", none, none, none, none⟩]

/-- A graph where task 2 lies on the directed cycle 2→3→1→2 of the
cleaned graph, but the DFS first reaches 3 through the shortcut edge
1→3, so the back edge 3→1 marks only the stack `{1, 3}`. -/
def cexTasks : List RawTask :=
  [⟨some 1, "A", none, some 1, some 5, some [3, 2]⟩,
   ⟨some 2, "B", none, some 1, some 5, some [3]⟩,
   ⟨some 3, "C", none, some 1, some 5, some [1]⟩]

/-- Two tasks whose unrounded scores differ by about 3·10⁻⁵ (the task
due later scoring higher) while both round to 0.542. -/
def c3Tasks : List RawTask :=
  [⟨some 1, "A", some 10, some (499/1000 : ℚ), some 5, some []⟩,
   ⟨some 2, "B", some 5, some 4, some 5, some []⟩]

/-- Task 3 is depended upon by tasks 1 and 2; task 1 also declares an
unknown dependency 99. -/
def blkTasks : List RawTask :=
  [⟨some 1, "A", none, some 1, some 5, some [3, 99]⟩,
   ⟨some 2, "B", none, some 1, some 5, some [3]⟩,
   ⟨some 3, "C", none, some 1, some 5, some []⟩]

/-- A single task depending only on itself. -/
def selfTasks : List RawTask :=
  [⟨some 7, "S", none, some 1, some 5, some [7]⟩]

/-- A task list with an overdue and a future task, identical otherwise. -/
def overdueTasks : List RawTask :=
  [⟨some 1, "O", some (-3), some 2, some 5, some []⟩,
   ⟨some 2, "F", some 3, some 2, some 5, some []⟩]

/-- A task whose estimated_hours is present but non-positive. -/
def negHoursTasks : List RawTask :=
  [⟨some 1, "N", none, some (-3), some 5, some []⟩]

/-! ### Properties of the stable insertion sort -/

open List

theorem mem_insertS {le : α → α → Bool} {x a : α} :
    ∀ {l : List α}, a ∈ insertS le x l ↔ a = x ∨ a ∈ l
  | [] => by simp [insertS]
  | y :: ys => by
    by_cases h : le x y = true
    · simp [insertS, h]
    · simp only [insertS, if_neg h, List.mem_cons, @mem_insertS _ _ _ _ ys]
      tauto

theorem insertS_perm (le : α → α → Bool) (x : α) :
    ∀ l : List α, insertS le x l ~ x :: l
  | [] => by simp [insertS]
  | y :: ys => by
    by_cases h : le x y = true
    · simp [insertS, h]
    · simp only [insertS, if_neg h]
      exact ((insertS_perm le x ys).cons y).trans (List.Perm.swap x y ys)

theorem sortS_perm (le : α → α → Bool) : ∀ l : List α, sortS le l ~ l
  | [] => by simp [sortS]
  | x :: xs => (insertS_perm le x (sortS le xs)).trans ((sortS_perm le xs).cons x)

theorem length_sortS (le : α → α → Bool) (l : List α) :
    (sortS le l).length = l.length :=
  (sortS_perm le l).length_eq

theorem mem_sortS {le : α → α → Bool} {l : List α} {a : α} :
    a ∈ sortS le l ↔ a ∈ l :=
  (sortS_perm le l).mem_iff

theorem pairwise_insertS {le : α → α → Bool}
    (trans : ∀ a b c, le a b = true → le b c = true → le a c = true)
    (total : ∀ a b, le a b = true ∨ le b a = true) (x : α) :
    ∀ {l : List α}, l.Pairwise (fun a b => le a b = true) →
      (insertS le x l).Pairwise (fun a b => le a b = true)
  | [], _ => by simp [insertS]
  | y :: ys, hp => by
    rcases List.pairwise_cons.1 hp with ⟨hy, hys⟩
    by_cases h : le x y = true
    · simp only [insertS, if_pos h]
      refine List.pairwise_cons.2 ⟨?_, hp⟩
      intro z hz
      rcases List.mem_cons.1 hz with rfl | hz
      · exact h
      · exact trans x y z h (hy z hz)
    · simp only [insertS, if_neg h]
      refine List.pairwise_cons.2 ⟨?_, pairwise_insertS trans total x hys⟩
      intro z hz
      rcases mem_insertS.1 hz with rfl | hz
      · rcases total z y with h1 | h1
        · exact absurd h1 h
        · exact h1
      · exact hy z hz

theorem pairwise_sortS {le : α → α → Bool}
    (trans : ∀ a b c, le a b = true → le b c = true → le a c = true)
    (total : ∀ a b, le a b = true ∨ le b a = true) :
    ∀ l : List α, (sortS le l).Pairwise (fun a b => le a b = true)
  | [] => by simp [sortS]
  | x :: xs => pairwise_insertS trans total x (pairwise_sortS trans total xs)

theorem sublist_insertS {le : α → α → Bool} {x : α} :
    ∀ {l c : List α}, c <+ l → c <+ insertS le x l
  | [], c, h => by
    simpa [insertS] using h.trans (List.nil_sublist [x])
  | y :: ys, c, h => by
    by_cases hx : le x y = true
    · simpa [insertS, hx] using h.cons x
    · simp only [insertS, if_neg hx]
      cases h with
      | cons _ h => exact (sublist_insertS h).cons y
      | cons₂ _ h => exact (sublist_insertS h).cons₂ y

theorem insertS_pair {le : α → α → Bool} {x b : α} (hxb : le x b = true) :
    ∀ {l : List α}, [b] <+ l → [x, b] <+ insertS le x l
  | [], h => by simp at h
  | y :: ys, h => by
    by_cases hx : le x y = true
    · simp only [insertS, if_pos hx]
      exact h.cons₂ x
    · simp only [insertS, if_neg hx]
      cases h with
      | cons _ h => exact (insertS_pair hxb h).cons y
      | cons₂ _ h =>
        exact absurd hxb hx

theorem sortS_pair_stable {le : α → α → Bool} {a b : α} (hab : le a b = true) :
    ∀ {l : List α}, [a, b] <+ l → [a, b] <+ sortS le l
  | x :: xs, h => by
    cases h with
    | cons _ h => exact sublist_insertS (sortS_pair_stable hab h)
    | cons₂ _ h =>
      refine insertS_pair hab ?_
      exact List.singleton_sublist.2 (mem_sortS.2 (List.singleton_sublist.1 h))

/-! ### The ranking comparison is a total preorder -/

theorem dueKeyLt_trans {x y z : Option Int} (h1 : dueKeyLt x y = true)
    (h2 : dueKeyLt y z = true) : dueKeyLt x z = true := by
  rcases x with _ | u <;> rcases y with _ | v <;> rcases z with _ | w <;>
    simp_all [dueKeyLt] <;> omega

theorem dueKeyLt_asymm {x y : Option Int} (h1 : dueKeyLt x y = true)
    (h2 : dueKeyLt y x = true) : False := by
  rcases x with _ | u <;> rcases y with _ | v <;> simp_all [dueKeyLt] <;> omega

theorem dueKeyLt_tri (x y : Option Int) :
    dueKeyLt x y = true ∨ x = y ∨ dueKeyLt y x = true := by
  rcases x with _ | u <;> rcases y with _ | v <;> simp [dueKeyLt]
  omega

theorem sortLe_total (a b : ℚ × ScoredTask) :
    sortLe a b = true ∨ sortLe b a = true := by
  simp only [sortLe, Bool.or_eq_true, Bool.and_eq_true, decide_eq_true_eq]
  rcases lt_trichotomy a.1 b.1 with h | h | h
  · tauto
  · rcases dueKeyLt_tri a.2.due_date b.2.due_date with hd | hd | hd
    · tauto
    · rcases le_total b.2.importance a.2.importance with hi | hi
      · exact Or.inl (Or.inr ⟨h, Or.inr ⟨hd, hi⟩⟩)
      · exact Or.inr (Or.inr ⟨h.symm, Or.inr ⟨hd.symm, hi⟩⟩)
    · exact Or.inr (Or.inr ⟨h.symm, Or.inl hd⟩)
  · tauto

theorem sortLe_trans (a b c : ℚ × ScoredTask) (h1 : sortLe a b = true)
    (h2 : sortLe b c = true) : sortLe a c = true := by
  simp only [sortLe, Bool.or_eq_true, Bool.and_eq_true, decide_eq_true_eq] at *
  rcases h1 with h1 | ⟨he1, h1⟩
  · rcases h2 with h2 | ⟨he2, h2⟩
    · exact Or.inl (h2.trans h1)
    · exact Or.inl (he2 ▸ h1)
  · rcases h2 with h2 | ⟨he2, h2⟩
    · exact Or.inl (he1 ▸ h2)
    · refine Or.inr ⟨he1.trans he2, ?_⟩
      rcases h1 with h1 | ⟨hd1, h1⟩
      · rcases h2 with h2 | ⟨hd2, h2⟩
        · exact Or.inl (dueKeyLt_trans h1 h2)
        · exact Or.inl (hd2 ▸ h1)
      · rcases h2 with h2 | ⟨hd2, h2⟩
        · exact Or.inl (hd1 ▸ h2)
        · exact Or.inr ⟨hd1.trans hd2, h2.trans h1⟩

theorem sortLe_iff_rankRel (a b : ℚ × ScoredTask) :
    sortLe a b = true ↔ rankRel a b := by
  simp [sortLe, rankRel]

/-! ### Membership in the pipeline output -/

theorem mem_score_tasks_iff {tasks : List RawTask} {strategy : String}
    {today : Int} {out : ScoredTask} :
    out ∈ score_tasks tasks strategy today ↔
      ∃ p ∈ appliedMap tasks,
        out = (scoreOne strategy today (appliedMap tasks) p.2).2 := by
  simp only [score_tasks, rankedPairs, List.mem_map]
  constructor
  · rintro ⟨pair, hmem, rfl⟩
    rcases List.mem_map.1 (mem_sortS.1 hmem) with ⟨p, hp, rfl⟩
    exact ⟨p, hp, rfl⟩
  · rintro ⟨p, hp, rfl⟩
    exact ⟨scoreOne strategy today (appliedMap tasks) p.2,
      mem_sortS.2 (List.mem_map.2 ⟨p, hp, rfl⟩), rfl⟩

theorem scoreOne_issues (strategy : String) (today : Int) (m : TaskMap)
    (t : TaskData) : (scoreOne strategy today m t).2.issues = t.issues := rfl

theorem scoreOne_id (strategy : String) (today : Int) (m : TaskMap)
    (t : TaskData) : (scoreOne strategy today m t).2.id = t.id := rfl

theorem scoreOne_hours (strategy : String) (today : Int) (m : TaskMap)
    (t : TaskData) :
    (scoreOne strategy today m t).2.estimated_hours = t.estimated_hours := rfl

theorem scoreOne_explanation (strategy : String) (today : Int) (m : TaskMap)
    (t : TaskData) :
    (scoreOne strategy today m t).2.explanation =
      String.intercalate " " (explanationParts strategy today t (revCount m t.id)) := rfl

theorem scoreOne_score (strategy : String) (today : Int) (m : TaskMap)
    (t : TaskData) :
    (scoreOne strategy today m t).2.score =
      round3 (taskScore strategy today t.due_date t.importance
        t.estimated_hours (revCount m t.id) t.cycle_member) := rfl

/-! ### Graph-builder lemmas -/

theorem keysOf_insertAssoc_mem {m : TaskMap} {k : Int} (v : TaskData)
    (h : k ∈ keysOf m) : keysOf (insertAssoc m k v) = keysOf m := by
  have hany : m.any (fun p => p.1 = k) = true := by
    simp only [List.any_eq_true, decide_eq_true_eq]
    rcases List.mem_map.1 h with ⟨p, hp, rfl⟩
    exact ⟨p, hp, rfl⟩
  simp only [insertAssoc, if_pos hany, keysOf, List.map_map]
  refine List.map_congr_left fun p _ => ?_
  by_cases hk : p.1 = k <;> simp [hk]

theorem keysOf_insertAssoc_new {m : TaskMap} {k : Int} (v : TaskData)
    (h : k ∉ keysOf m) : keysOf (insertAssoc m k v) = keysOf m ++ [k] := by
  have hany : m.any (fun p => p.1 = k) = false := by
    simp only [List.any_eq_false, decide_eq_true_eq]
    intro p hp hpk
    exact h (List.mem_map.2 ⟨p, hp, hpk⟩)
  simp [insertAssoc, hany, keysOf]

theorem length_insertAssoc_new {m : TaskMap} {k : Int} (v : TaskData)
    (h : k ∉ keysOf m) : (insertAssoc m k v).length = m.length + 1 := by
  have hany : m.any (fun p => p.1 = k) = false := by
    simp only [List.any_eq_false, decide_eq_true_eq]
    intro p hp hpk
    exact h (List.mem_map.2 ⟨p, hp, hpk⟩)
  simp [insertAssoc, hany]

theorem buildRawAux_length :
    ∀ (tasks : List RawTask) (m : TaskMap) (nid : Int),
      (keysOf m ++ assignedIdsAux tasks nid).Nodup →
      (buildRawAux tasks m nid).length = m.length + tasks.length
  | [], m, nid, _ => by simp [buildRawAux]
  | r :: rest, m, nid, h => by
    cases hid : r.id with
    | some tid =>
      have h' : (keysOf m ++ tid :: assignedIdsAux rest nid).Nodup := by
        simpa [assignedIdsAux, hid] using h
      have hfresh : tid ∉ keysOf m := by
        intro hmem
        have hd := List.disjoint_of_nodup_append h'
        exact hd hmem (by simp)
      have hkeys : keysOf (insertAssoc m tid (mkTask tid r)) = keysOf m ++ [tid] :=
        keysOf_insertAssoc_new _ hfresh
      have hrec := buildRawAux_length rest (insertAssoc m tid (mkTask tid r)) nid
        (by rw [hkeys]; simpa [List.append_assoc] using h')
      simp only [buildRawAux, hid, hrec, length_insertAssoc_new _ hfresh,
        List.length_cons]
      omega
    | none =>
      have h' : (keysOf m ++ nid :: assignedIdsAux rest (nid + 1)).Nodup := by
        simpa [assignedIdsAux, hid] using h
      have hfresh : nid ∉ keysOf m := by
        have hd := List.disjoint_of_nodup_append h'
        intro hmem
        exact hd hmem (by simp)
      have hkeys : keysOf (insertAssoc m nid (mkTask nid r)) = keysOf m ++ [nid] :=
        keysOf_insertAssoc_new _ hfresh
      have hrec := buildRawAux_length rest (insertAssoc m nid (mkTask nid r)) (nid + 1)
        (by rw [hkeys]; simpa [List.append_assoc] using h')
      simp only [buildRawAux, hid, hrec, length_insertAssoc_new _ hfresh,
        List.length_cons]
      omega

theorem buildRaw_length {tasks : List RawTask}
    (h : (assignedIds tasks).Nodup) : (buildRaw tasks).length = tasks.length := by
  simpa [buildRaw, keysOf] using
    buildRawAux_length tasks [] 1 (by simpa [keysOf, assignedIds] using h)

theorem keysOf_cleanMap (m : TaskMap) : keysOf (cleanMap m) = keysOf m := by
  simp [keysOf, cleanMap, List.map_map, Function.comp]

theorem keysOf_applyCycles (m : TaskMap) (marked : List Int) :
    keysOf (applyCycles m marked) = keysOf m := by
  simp only [keysOf, applyCycles, List.map_map]
  refine List.map_congr_left fun p _ => ?_
  by_cases h : p.1 ∈ marked <;> simp [h]

theorem mem_cleanMap_iff {m : TaskMap} {p : Int × TaskData} :
    p ∈ cleanMap m ↔ ∃ q ∈ m, p = (q.1, cleanTask (keysOf m) q.2) := by
  simp only [cleanMap, List.mem_map]
  constructor
  · rintro ⟨q, hq, rfl⟩; exact ⟨q, hq, rfl⟩
  · rintro ⟨q, hq, rfl⟩; exact ⟨q, hq, rfl⟩

theorem buildTaskMap_closed (tasks : List RawTask) :
    closedMap (buildTaskMap tasks) := by
  intro p hp d hd
  rcases mem_cleanMap_iff.1 hp with ⟨q, _, rfl⟩
  simp only [cleanTask, List.mem_filter, decide_eq_true_eq] at hd
  rw [buildTaskMap, keysOf_cleanMap]
  exact hd.2

theorem mem_applyCycles_iff {m : TaskMap} {marked : List Int}
    {p : Int × TaskData} :
    p ∈ applyCycles m marked ↔
      ∃ q ∈ m,
        p = (if q.1 ∈ marked then
              (q.1, { q.2 with
                      cycle_member := true
                      issues := if cycleMsg ∈ q.2.issues then q.2.issues
                                else q.2.issues ++ [cycleMsg] })
             else q) := by
  simp only [applyCycles, List.mem_map]
  constructor
  · rintro ⟨q, hq, rfl⟩; exact ⟨q, hq, rfl⟩
  · rintro ⟨q, hq, rfl⟩; exact ⟨q, hq, rfl⟩

theorem appliedMap_closed (tasks : List RawTask) :
    closedMap (appliedMap tasks) := by
  intro p hp d hd
  rcases mem_applyCycles_iff.1 hp with ⟨q, hq, rfl⟩
  have hdq : d ∈ q.2.dependencies := by
    by_cases h : q.1 ∈ (detectCycles (buildTaskMap tasks)).getD [] <;>
      simpa [h] using hd
  have := buildTaskMap_closed tasks q hq d hdq
  simpa [appliedMap, keysOf_applyCycles] using this

theorem length_appliedMap (tasks : List RawTask) :
    (appliedMap tasks).length = (buildRaw tasks).length := by
  simp [appliedMap, applyCycles, buildTaskMap, cleanMap]

/-! ### Claim theorems: cardinality (C1) -/

/-- C1 counterexample: two input records whose assigned ids collide
(explicit id 1 and synthetic id 1) collapse to a single map slot, so
`score_tasks` returns 1 scored task for 2 input tasks, falsifying
"for every input list of N task records ... exactly N scored tasks". -/
theorem cardinality_counterexample :
    (score_tasks dupTasks "smart_balance" 0).length ≠ dupTasks.length := by
  decide

/-- C1 (amended): if the ids assigned to the input records (explicit ids,
and the synthetic counter values for records without one) are pairwise
distinct, then `score_tasks` returns exactly one scored task per input
task, for every strategy and current date.  (When ids collide, a later
record silently overwrites the earlier one in the task map.) -/
theorem cardinality_preserved (tasks : List RawTask)
    (h : (assignedIds tasks).Nodup) (strategy : String) (today : Int) :
    (score_tasks tasks strategy today).length = tasks.length := by
  simp only [score_tasks, List.length_map, rankedPairs, length_sortS,
    scoredPairs, length_appliedMap]
  exact buildRaw_length h

/-- Witness for C1: a concrete two-task input with distinct ids. -/
theorem cardinality_preserved_witness :
    (assignedIds overdueTasks).Nodup ∧
      (score_tasks overdueTasks "deadline_driven" 0).length =
        overdueTasks.length :=
  ⟨by decide, cardinality_preserved overdueTasks (by decide) "deadline_driven" 0⟩

/-! ### Claim theorems: unknown-dependency pruning (C6) -/

/-- C6: after the Graph Builder stage, every surviving dependency id is a
key of the task map; the surviving entries are exactly the declared ones
whose target is a key, in their original order (a `filter`); and the
issues list gains exactly one "Unknown dependency id {id} ignored."
message per dropped id, in declaration order. -/
theorem unknown_dependency_pruning (tasks : List RawTask) :
    keysOf (buildTaskMap tasks) = keysOf (buildRaw tasks) ∧
    ∀ p ∈ buildTaskMap tasks,
      (∀ d ∈ p.2.dependencies, d ∈ keysOf (buildTaskMap tasks)) ∧
      ∃ t0, (p.1, t0) ∈ buildRaw tasks ∧
        p.2.dependencies =
          t0.dependencies.filter (fun d => d ∈ keysOf (buildRaw tasks)) ∧
        p.2.issues = t0.issues ++
          (t0.dependencies.filter (fun d => d ∉ keysOf (buildRaw tasks))).map
            unknownMsg := by
  refine ⟨keysOf_cleanMap _, fun p hp => ⟨buildTaskMap_closed tasks p hp, ?_⟩⟩
  rcases mem_cleanMap_iff.1 hp with ⟨q, hq, rfl⟩
  exact ⟨q.2, hq, rfl, rfl⟩

/-- Witness for C6: the concrete input where task 1 declares the unknown
dependency 99. -/
theorem unknown_dependency_pruning_witness :
    ∀ p ∈ buildTaskMap blkTasks,
      (∀ d ∈ p.2.dependencies, d ∈ keysOf (buildTaskMap blkTasks)) ∧
      ∃ t0, (p.1, t0) ∈ buildRaw blkTasks ∧
        p.2.dependencies =
          t0.dependencies.filter (fun d => d ∈ keysOf (buildRaw blkTasks)) ∧
        p.2.issues = t0.issues ++
          (t0.dependencies.filter (fun d => d ∉ keysOf (buildRaw blkTasks))).map
            unknownMsg :=
  (unknown_dependency_pruning blkTasks).2

/-! ### Claim theorems: unknown strategy fallback (C8) -/

theorem computeScoreForStrategy_default (s : String)
    (h1 : s ≠ "fastest_wins") (h2 : s ≠ "high_impact")
    (h3 : s ≠ "deadline_driven") (u i e d : ℚ) (od cyc : Bool) :
    computeScoreForStrategy s u i e d od cyc = smartBalanceScore u i e d od cyc := by
  simp only [computeScoreForStrategy, if_neg h1, if_neg h2, if_neg h3,
    smartBalanceScore]

theorem computeScoreForStrategy_eq_smart (s : String)
    (h1 : s ≠ "fastest_wins") (h2 : s ≠ "high_impact")
    (h3 : s ≠ "deadline_driven") :
    computeScoreForStrategy s = computeScoreForStrategy "smart_balance" := by
  funext u i e d od cyc
  rw [computeScoreForStrategy_default s h1 h2 h3,
    computeScoreForStrategy_default "smart_balance" (by decide) (by decide)
      (by decide)]

theorem strategyClause_default (s : String)
    (h1 : s ≠ "fastest_wins") (h2 : s ≠ "high_impact")
    (h3 : s ≠ "deadline_driven") :
    strategyClause s = "Strategy: Smart Balance (balancing all factors)." := by
  simp only [strategyClause, if_neg h1, if_neg h2, if_neg h3]

theorem scoreOne_unknown_strategy (s : String)
    (h1 : s ≠ "fastest_wins") (h2 : s ≠ "high_impact")
    (h3 : s ≠ "deadline_driven") (today : Int) (m : TaskMap) (t : TaskData) :
    scoreOne s today m t = scoreOne "smart_balance" today m t := by
  simp only [scoreOne, taskScore, explanationParts,
    computeScoreForStrategy_eq_smart s h1 h2 h3,
    strategyClause_default s h1 h2 h3,
    strategyClause_default "smart_balance" (by decide) (by decide) (by decide)]

/-- C8: any strategy string other than the three recognized ones behaves
exactly like "smart_balance": same combination weights
(0.35/0.35/0.15/0.15 with the overdue/cycle adjustments), the
Smart Balance explanation clause, and an identical overall result. -/
theorem unknown_strategy_fallback (tasks : List RawTask) (today : Int)
    (s : String) (h1 : s ≠ "fastest_wins") (h2 : s ≠ "high_impact")
    (h3 : s ≠ "deadline_driven") :
    score_tasks tasks s today = score_tasks tasks "smart_balance" today ∧
    (∀ u i e d od cyc,
      computeScoreForStrategy s u i e d od cyc = smartBalanceScore u i e d od cyc) ∧
    strategyClause s = "Strategy: Smart Balance (balancing all factors)." := by
  refine ⟨?_, computeScoreForStrategy_default s h1 h2 h3,
    strategyClause_default s h1 h2 h3⟩
  have hpairs : scoredPairs tasks s today = scoredPairs tasks "smart_balance" today := by
    simp only [scoredPairs]
    exact List.map_congr_left fun p _ =>
      scoreOne_unknown_strategy s h1 h2 h3 today (appliedMap tasks) p.2
  simp only [score_tasks, rankedPairs, hpairs]

/-- Witness for C8: the unrecognized strategy string "foo". -/
theorem unknown_strategy_fallback_witness :
    score_tasks ringTasks "foo" 0 = score_tasks ringTasks "smart_balance" 0 :=
  (unknown_strategy_fallback ringTasks 0 "foo" (by decide) (by decide)
    (by decide)).1

/-! ### Claim theorems: cycle detection (C2) -/

/-- C2 counterexample: in `cexTasks` the cleaned graph has the directed
cycle 2→3→1→2, yet task 2 is never marked: the DFS reaches 3 through the
shortcut edge 1→3 first, the back edge 3→1 marks only the active stack
{1, 3}, and the later edge 2→3 hits an already-visited node.  So "every
task that lies on at least one directed cycle is marked" is false. -/
theorem cycle_completeness_counterexample :
    (3 ∈ depsOf (buildTaskMap cexTasks) 2 ∧
     1 ∈ depsOf (buildTaskMap cexTasks) 3 ∧
     2 ∈ depsOf (buildTaskMap cexTasks) 1) ∧
    (∃ p ∈ appliedMap cexTasks,
      p.1 = 2 ∧ p.2.cycle_member = false ∧ cycleMsg ∉ p.2.issues) ∧
    ∃ out ∈ score_tasks cexTasks "smart_balance" 0,
      out.id = 2 ∧ cycleMsg ∉ out.issues := by
  decide

/-- C2 (amended): on the dependency ring 1→2→3→1 the detector does mark
every task: for any strategy and current date, every entry of the task
map is flagged `cycle_member` and every output's issues list contains
"Circular dependency detected.".  (The universal completeness statement
fails in general; see the counterexample.) -/
theorem cycle_ring_detected (strategy : String) (today : Int) :
    (∀ p ∈ appliedMap ringTasks, p.2.cycle_member = true ∧ cycleMsg ∈ p.2.issues) ∧
    ∀ out ∈ score_tasks ringTasks strategy today, cycleMsg ∈ out.issues := by
  have hmap : ∀ p ∈ appliedMap ringTasks,
      p.2.cycle_member = true ∧ cycleMsg ∈ p.2.issues := by decide
  refine ⟨hmap, fun out hout => ?_⟩
  rcases mem_score_tasks_iff.1 hout with ⟨p, hp, rfl⟩
  rw [scoreOne_issues]
  exact (hmap p hp).2

/-- Witness for C2: a concrete output of the ring under a concrete
strategy and date. -/
theorem cycle_ring_detected_witness :
    ∃ out ∈ score_tasks ringTasks "high_impact" 3, cycleMsg ∈ out.issues :=
  ⟨(score_tasks ringTasks "high_impact" 3).headD junkScored, by decide,
    (cycle_ring_detected "high_impact" 3).2 _ (by decide)⟩

/-! ### Sub-score bounds and overdue dominance (C5) -/

theorem importanceScore_bounds (i : Int) :
    1/10 ≤ importanceScore i ∧ importanceScore i ≤ 1 := by
  unfold importanceScore
  have h1 : (1:ℤ) ≤ max 1 (min i 10) := le_max_left _ _
  have h2 : max 1 (min i 10) ≤ (10:ℤ) := by
    rcases le_total i 10 with h | h
    · simp [min_eq_left h]
      omega
    · simp [min_eq_right h]
  have c1 : (1:ℚ) ≤ ((max 1 (min i 10) : ℤ) : ℚ) := by exact_mod_cast h1
  have c2 : ((max 1 (min i 10) : ℤ) : ℚ) ≤ 10 := by exact_mod_cast h2
  constructor
  · linarith
  · linarith

theorem effortDesirability_bounds (h : ℚ) :
    0 < effortDesirability h ∧ effortDesirability h ≤ 1 := by
  unfold effortDesirability
  by_cases hh : h ≤ 0
  · rw [if_pos hh]
    norm_num
  · rw [if_neg hh]
    push_neg at hh
    constructor
    · positivity
    · rw [div_le_one (by linarith)]
      linarith

theorem dependencyScore_bounds (n : Nat) :
    0 ≤ dependencyScore n ∧ dependencyScore n ≤ 1 := by
  unfold dependencyScore
  by_cases hn : n ≤ 0
  · rw [if_pos hn]; norm_num
  · rw [if_neg hn]
    have : (0:ℚ) ≤ (n : ℚ) := by positivity
    constructor
    · apply le_min <;> norm_num
      linarith
    · exact min_le_left _ _

theorem urgencyScore_overdue {d today : Int} (h : d < today) :
    urgencyScore (some d) today = 1.2 := by
  simp only [urgencyScore]
  rw [if_pos (by omega : (d - today : ℤ) < 0)]

theorem urgencyScore_nonoverdue_bounds (due : Option Int) (today : Int)
    (h : ∀ d, due = some d → today ≤ d) :
    3/10 ≤ urgencyScore due today ∧ urgencyScore due today ≤ 1 := by
  cases due with
  | none => simp only [urgencyScore]; norm_num
  | some d =>
    have hd : today ≤ d := h d rfl
    simp only [urgencyScore]
    rw [if_neg (by omega : ¬((d - today : ℤ) < 0))]
    have hcast : (0:ℚ) ≤ ((d - today : ℤ) : ℚ) := by exact_mod_cast by omega
    constructor
    · refine le_trans (by norm_num) (le_max_left (0.4:ℚ) _)
    · apply max_le
      · norm_num
      · have : ((d - today : ℤ) : ℚ) / 30 ≥ 0 := by positivity
        linarith

theorem round3_lt_of_gap {x y : ℚ} (h : x + 1/1000 ≤ y) :
    round3 x < round3 y := by
  unfold round3
  have h1 : round (1000 * x) + 1 ≤ round (1000 * y) := by
    have h0 : round (1000 * x + ((1:ℤ) : ℚ)) ≤ round (1000 * y) := by
      rw [round_eq, round_eq]
      exact Int.floor_mono (by push_cast; linarith)
    rwa [round_add_int] at h0
  have h2 : ((round (1000 * x) : ℤ) : ℚ) + 1 ≤ ((round (1000 * y) : ℤ) : ℚ) := by
    exact_mod_cast h1
  linarith

theorem computeScore_deadline (u i e d : ℚ) (od cyc : Bool) :
    computeScoreForStrategy "deadline_driven" u i e d od cyc =
      max 0 (min (0.6 * u + 0.2 * i + 0.1 * e + 0.1 * d +
        (if od then 0.1 else 0) - (if cyc then 0.1 else 0)) 1.5) := by
  simp only [computeScoreForStrategy]
  rw [if_neg (by decide : ¬("deadline_driven" = "fastest_wins")),
    if_neg (by decide : ¬("deadline_driven" = "high_impact"))]
  norm_num

theorem isOverdue_false_of_nonoverdue {due : Option Int} {today : Int}
    (h : ∀ d, due = some d → today ≤ d) : isOverdue due today = false := by
  cases due with
  | none => rfl
  | some d =>
    have := h d rfl
    simp only [isOverdue, decide_eq_false_iff_not]
    omega

/-- C5: under strategy "deadline_driven", a task with a due date strictly
before today scores strictly higher (both unrounded and after rounding to
3 decimals) than an otherwise identical task whose due date is today or
later or absent — whatever the two tasks' reverse-dependent counts and
cycle flags are. -/
theorem overdue_dominance (today d1 : Int) (due2 : Option Int) (imp : Int)
    (hours : ℚ) (n1 n2 : Nat) (c1 c2 : Bool) (h1 : d1 < today)
    (h2 : ∀ d, due2 = some d → today ≤ d) :
    taskScore "deadline_driven" today due2 imp hours n2 c2 <
      taskScore "deadline_driven" today (some d1) imp hours n1 c1 ∧
    round3 (taskScore "deadline_driven" today due2 imp hours n2 c2) <
      round3 (taskScore "deadline_driven" today (some d1) imp hours n1 c1) := by
  have hu1 : urgencyScore (some d1) today = 1.2 := urgencyScore_overdue h1
  have hod1 : isOverdue (some d1) today = true := by
    simp only [isOverdue, decide_eq_true_eq]
    omega
  have hod2 : isOverdue due2 today = false := isOverdue_false_of_nonoverdue h2
  obtain ⟨hu2a, hu2b⟩ := urgencyScore_nonoverdue_bounds due2 today h2
  obtain ⟨hia, hib⟩ := importanceScore_bounds imp
  obtain ⟨hea, heb⟩ := effortDesirability_bounds hours
  obtain ⟨hd1a, hd1b⟩ := dependencyScore_bounds n1
  obtain ⟨hd2a, hd2b⟩ := dependencyScore_bounds n2
  set u2 := urgencyScore due2 today
  set i := importanceScore imp
  set e := effortDesirability hours
  set p1 := dependencyScore n1
  set p2 := dependencyScore n2
  have hc1 : (0:ℚ) ≤ (if c1 then 0.1 else 0) ∧ (if c1 then (0.1:ℚ) else 0) ≤ 0.1 := by
    cases c1 <;> norm_num
  have hc2 : (0:ℚ) ≤ (if c2 then 0.1 else 0) ∧ (if c2 then (0.1:ℚ) else 0) ≤ 0.1 := by
    cases c2 <;> norm_num
  unfold taskScore
  rw [computeScore_deadline, computeScore_deadline, hu1, hod1, hod2]
  simp only [if_true, Bool.false_eq_true, if_false]
  set B1 := 0.6 * (1.2:ℚ) + 0.2 * i + 0.1 * e + 0.1 * p1 + 0.1 -
    (if c1 then 0.1 else 0) with hB1
  set B2 := 0.6 * u2 + 0.2 * i + 0.1 * e + 0.1 * p2 + 0 -
    (if c2 then 0.1 else 0) with hB2
  have hB1pos : (0:ℚ) < B1 := by rw [hB1]; linarith [hc1.2]
  have hB1le : B1 ≤ 1.5 := by rw [hB1]; linarith [hc1.1]
  have hB2pos : (0:ℚ) < B2 := by rw [hB2]; linarith [hc2.2]
  have hgap : B2 + 1/1000 ≤ B1 := by rw [hB1, hB2]; linarith [hc1.2, hc2.1]
  have hs1 : max 0 (min B1 1.5) = B1 := by
    rw [min_eq_left hB1le, max_eq_right hB1pos.le]
  have hs2 : max 0 (min B2 1.5) ≤ B2 :=
    max_le hB2pos.le (min_le_left _ _)
  have hlt : max 0 (min B2 1.5) + 1/1000 ≤ B1 :=
    le_trans (add_le_add_right hs2 _) hgap
  constructor
  · rw [hs1]
    refine lt_of_le_of_lt hs2 ?_
    refine lt_of_lt_of_le (lt_add_of_pos_right B2 (by norm_num : (0:ℚ) < 1/1000)) hgap
  · rw [hs1]
    exact round3_lt_of_gap hlt

/-- Witness for C5: an overdue task (due yesterday relative to `today=0`)
against a future-due task. -/
theorem overdue_dominance_witness :
    taskScore "deadline_driven" 0 (some 3) 5 2 0 false <
      taskScore "deadline_driven" 0 (some (-1)) 5 2 0 false :=
  (overdue_dominance 0 (-1) (some 3) 5 2 0 0 false false (by decide)
    (fun d hd => by injection hd with h; omega)).1

/-! ### Key/id invariant of the task map -/

theorem mem_insertAssoc {m : TaskMap} {k : Int} {v : TaskData} :
    ∀ p ∈ insertAssoc m k v, p ∈ m ∨ p = (k, v) := by
  intro p hp
  by_cases hany : m.any (fun q => q.1 = k) = true
  · simp only [insertAssoc, if_pos hany] at hp
    rcases List.mem_map.1 hp with ⟨q, hq, rfl⟩
    by_cases hk : q.1 = k <;> simp [hk, hq]
  · simp only [insertAssoc, if_neg hany, List.mem_append, List.mem_singleton] at hp
    exact hp

theorem buildRawAux_fst_eq_id :
    ∀ (tasks : List RawTask) (m : TaskMap) (nid : Int),
      (∀ p ∈ m, p.1 = p.2.id) → ∀ p ∈ buildRawAux tasks m nid, p.1 = p.2.id
  | [], _, _, hm => hm
  | r :: rest, m, nid, hm => by
    cases hid : r.id with
    | some tid =>
      simp only [buildRawAux, hid]
      refine buildRawAux_fst_eq_id rest _ nid fun p hp => ?_
      rcases mem_insertAssoc p hp with h | rfl
      · exact hm p h
      · rfl
    | none =>
      simp only [buildRawAux, hid]
      refine buildRawAux_fst_eq_id rest _ (nid + 1) fun p hp => ?_
      rcases mem_insertAssoc p hp with h | rfl
      · exact hm p h
      · rfl

theorem buildRaw_fst_eq_id {tasks : List RawTask} :
    ∀ p ∈ buildRaw tasks, p.1 = p.2.id :=
  buildRawAux_fst_eq_id tasks [] 1 (by simp)

theorem appliedMap_fst_eq_id {tasks : List RawTask} :
    ∀ p ∈ appliedMap tasks, p.1 = p.2.id := by
  intro p hp
  rcases mem_applyCycles_iff.1 hp with ⟨q, hq, rfl⟩
  rcases mem_cleanMap_iff.1 hq with ⟨q0, hq0, rfl⟩
  have h0 := buildRaw_fst_eq_id q0 hq0
  by_cases h : q0.1 ∈ (detectCycles (buildTaskMap tasks)).getD []
  · rw [if_pos h]
    simpa [cleanTask] using h0
  · rw [if_neg h]
    simpa [cleanTask] using h0

/-! ### Claim theorems: blocking count (C4) -/

/-- C4 counterexample: a task depended upon by exactly 2 other valid
tasks has dependency sub-score `min(1.0, 0.3 + 0.1*2) = 0.5`, not the
claimed 0.4 (the claim's arithmetic "0.3 + 0.1×2 = 0.4" is wrong). -/
theorem blocking_counterexample :
    revCount (appliedMap blkTasks) 3 = 2 ∧
    dependencyScore (revCount (appliedMap blkTasks) 3) ≠ 2/5 := by
  decide

/-- C4 (amended): a task with exactly 2 reverse dependents has dependency
sub-score 0.3 + 0.1×2 = 0.5, and its explanation contains the clause
"Blocks 2 other task(s)." -/
theorem blocking_count (tasks : List RawTask) (s : String) (today : Int)
    (k : Int) (t : TaskData) (hmem : (k, t) ∈ appliedMap tasks)
    (h2 : revCount (appliedMap tasks) k = 2) :
    dependencyScore (revCount (appliedMap tasks) k) = 1/2 ∧
    ∃ out ∈ score_tasks tasks s today, out.id = k ∧
      out.explanation = String.intercalate " "
        (explanationParts s today t (revCount (appliedMap tasks) k)) ∧
      blocksClause 2 ∈ explanationParts s today t (revCount (appliedMap tasks) k) := by
  have hid : k = t.id := appliedMap_fst_eq_id (k, t) hmem
  constructor
  · rw [h2]; norm_num [dependencyScore]
  · refine ⟨(scoreOne s today (appliedMap tasks) t).2,
      mem_score_tasks_iff.2 ⟨(k, t), hmem, rfl⟩, ?_, ?_, ?_⟩
    · rw [scoreOne_id, hid]
    · rw [scoreOne_explanation, hid]
    · rw [h2]
      simp [explanationParts]

/-! ### DFS: equations, monotonicity, fuel sufficiency -/

theorem dfsList_nil (fuel : Nat) (m : TaskMap) (visited stack marked : List Int) :
    dfsList fuel m [] visited stack marked = some (visited, marked) := rfl

theorem dfsList_foldl_none (fuel : Nat) (m : TaskMap) (stack : List Int) :
    ∀ ds : List Int,
      ds.foldl (fun acc d => match acc with
        | none => none
        | some (v, mk) => dfs fuel m d v stack mk) none = none
  | [] => rfl
  | _ :: ds => dfsList_foldl_none fuel m stack ds

theorem dfsList_cons_none (fuel : Nat) (m : TaskMap)
    {d : Int} (ds : List Int) {visited stack marked : List Int}
    (h : dfs fuel m d visited stack marked = none) :
    dfsList fuel m (d :: ds) visited stack marked = none := by
  unfold dfsList
  rw [List.foldl_cons,
    show (match some (visited, marked) with
      | none => none
      | some (v, mk) => dfs fuel m d v stack mk) =
        dfs fuel m d visited stack marked from rfl, h]
  exact dfsList_foldl_none fuel m stack ds

theorem dfsList_cons_some (fuel : Nat) (m : TaskMap)
    {d : Int} (ds : List Int) {visited stack marked v1 mk1 : List Int}
    (h : dfs fuel m d visited stack marked = some (v1, mk1)) :
    dfsList fuel m (d :: ds) visited stack marked =
      dfsList fuel m ds v1 stack mk1 := by
  unfold dfsList
  rw [List.foldl_cons,
    show (match some (visited, marked) with
      | none => none
      | some (v, mk) => dfs fuel m d v stack mk) =
        dfs fuel m d visited stack marked from rfl, h]

theorem dfs_succ (fuel : Nat) (m : TaskMap) (tid : Int)
    (visited stack marked : List Int) :
    dfs (fuel + 1) m tid visited stack marked =
      if tid ∈ stack then some (visited, marked ++ stack)
      else if tid ∈ visited then some (visited, marked)
      else dfsList fuel m (depsOf m tid) (tid :: visited) (tid :: stack) marked := rfl

/-- `visited` and `marked` only grow along the traversal. -/
theorem dfs_mono : ∀ fuel : Nat,
    (∀ m tid visited stack marked v mk,
      dfs fuel m tid visited stack marked = some (v, mk) →
      visited ⊆ v ∧ marked ⊆ mk) ∧
    (∀ m ds visited stack marked v mk,
      dfsList fuel m ds visited stack marked = some (v, mk) →
      visited ⊆ v ∧ marked ⊆ mk) := by
  intro fuel
  induction fuel with
  | zero =>
    constructor
    · intro m tid visited stack marked v mk h
      exact absurd h (by simp [dfs])
    · intro m ds visited stack marked v mk h
      induction ds generalizing visited marked with
      | nil =>
        rw [dfsList_nil] at h
        obtain ⟨rfl, rfl⟩ := Prod.mk.injEq .. ▸ Option.some.inj h
        exact ⟨List.Subset.refl _, List.Subset.refl _⟩
      | cons d ds ih =>
        rw [dfsList_cons_none 0 m ds rfl] at h
        exact absurd h (by simp)
    | succ n ihn =>
    have hdfs : ∀ m tid visited stack marked v mk,
        dfs (n + 1) m tid visited stack marked = some (v, mk) →
        visited ⊆ v ∧ marked ⊆ mk := by
      intro m tid visited stack marked v mk h
      rw [dfs_succ] at h
      by_cases h1 : tid ∈ stack
      · rw [if_pos h1] at h
        obtain ⟨rfl, rfl⟩ := Prod.mk.injEq .. ▸ Option.some.inj h
        exact ⟨List.Subset.refl _, List.subset_append_left _ _⟩
      · rw [if_neg h1] at h
        by_cases h2 : tid ∈ visited
        · rw [if_pos h2] at h
          obtain ⟨rfl, rfl⟩ := Prod.mk.injEq .. ▸ Option.some.inj h
          exact ⟨List.Subset.refl _, List.Subset.refl _⟩
        · rw [if_neg h2] at h
          obtain ⟨hv, hm⟩ := ihn.2 m _ _ _ _ _ _ h
          exact ⟨fun x hx => hv (List.mem_cons_of_mem _ hx), hm⟩
    refine ⟨hdfs, ?_⟩
    intro m ds visited stack marked v mk h
    induction ds generalizing visited marked with
    | nil =>
      rw [dfsList_nil] at h
      obtain ⟨rfl, rfl⟩ := Prod.mk.injEq .. ▸ Option.some.inj h
      exact ⟨List.Subset.refl _, List.Subset.refl _⟩
    | cons d ds ih =>
      cases hd : dfs (n + 1) m d visited stack marked with
      | none =>
        rw [dfsList_cons_none _ m ds hd] at h
        exact absurd h (by simp)
      | some p =>
        obtain ⟨v1, mk1⟩ := p
        rw [dfsList_cons_some _ m ds hd] at h
        obtain ⟨hv1, hm1⟩ := hdfs m d visited stack marked v1 mk1 hd
        obtain ⟨hv2, hm2⟩ := ih _ _ h
        exact ⟨hv1.trans hv2, hm1.trans hm2⟩

theorem unvis_le_of_subset (m : TaskMap) {v1 v2 : List Int} (h : v1 ⊆ v2) :
    unvis m v2 ≤ unvis m v1 := by
  unfold unvis
  refine List.Sublist.length_le (List.monotone_filter_right _ fun a ha => ?_)
  simp only [decide_eq_true_eq] at *
  exact fun hmem => ha (h hmem)

theorem filter_unvis_cons_lt {tid : Int} {visited : List Int}
    (hv : tid ∉ visited) :
    ∀ {l : List Int}, tid ∈ l →
      (l.filter (fun k => decide (k ∉ tid :: visited))).length <
        (l.filter (fun k => decide (k ∉ visited))).length := by
  intro l
  induction l with
  | nil => intro hk; exact absurd hk (List.not_mem_nil tid)
  | cons a l ih =>
    intro hk
    by_cases hat : a = tid
    · subst hat
      have e1 : decide (a ∉ a :: visited) = false := by simp
      have e2 : decide (a ∉ visited) = true := by simpa using hv
      have hle : (l.filter (fun k => decide (k ∉ a :: visited))).length ≤
          (l.filter (fun k => decide (k ∉ visited))).length := by
        refine List.Sublist.length_le (List.monotone_filter_right _ fun b hb => ?_)
        simp only [decide_eq_true_eq, List.mem_cons, not_or] at *
        exact hb.2
      simp only [List.filter_cons, e1, e2, Bool.false_eq_true, if_false,
        if_true, List.length_cons]
      omega
    · have hk2 : tid ∈ l := by
        rcases List.mem_cons.1 hk with h | h
        · exact absurd h.symm hat
        · exact h
      have hlt := ih hk2
      by_cases hav : a ∈ visited
      · have e1 : decide (a ∉ tid :: visited) = false := by
          simp [List.mem_cons, hav]
        have e2 : decide (a ∉ visited) = false := by simp [hav]
        simpa only [List.filter_cons, e1, e2, Bool.false_eq_true,
          if_false] using hlt
      · have e1 : decide (a ∉ tid :: visited) = true := by
          simp [List.mem_cons, hat, hav]
        have e2 : decide (a ∉ visited) = true := by simp [hav]
        simp only [List.filter_cons, e1, e2, if_true, List.length_cons]
        omega

theorem unvis_cons_lt (m : TaskMap) {tid : Int} {visited : List Int}
    (hk : tid ∈ keysOf m) (hv : tid ∉ visited) :
    unvis m (tid :: visited) < unvis m visited := by
  unfold unvis
  exact filter_unvis_cons_lt hv hk

theorem depsOf_subset_keys {m : TaskMap} (hc : closedMap m) (tid : Int) :
    ∀ d ∈ depsOf m tid, d ∈ keysOf m := by
  intro d hd
  unfold depsOf at hd
  cases hf : m.find? (fun p => p.1 = tid) with
  | none => rw [hf] at hd; exact absurd hd (List.not_mem_nil d)
  | some p =>
    rw [hf] at hd
    exact hc p (List.mem_of_find?_eq_some hf) d hd

/-- Fuel sufficiency: with more fuel than there are unvisited keys, the
DFS cannot run out (each recursive descent visits a fresh key). -/
theorem dfs_isSome : ∀ fuel : Nat,
    (∀ m tid visited stack marked, closedMap m → tid ∈ keysOf m →
      unvis m visited < fuel → (dfs fuel m tid visited stack marked).isSome) ∧
    (∀ m ds visited stack marked, closedMap m → (∀ d ∈ ds, d ∈ keysOf m) →
      unvis m visited < fuel →
      (dfsList fuel m ds visited stack marked).isSome) := by
  intro fuel
  induction fuel with
  | zero =>
    exact ⟨fun m tid visited stack marked _ _ h => absurd h (by omega),
      fun m ds visited stack marked _ _ h => absurd h (by omega)⟩
  | succ n ihn =>
    have hdfs : ∀ m tid visited stack marked, closedMap m → tid ∈ keysOf m →
        unvis m visited < n + 1 →
        (dfs (n + 1) m tid visited stack marked).isSome := by
      intro m tid visited stack marked hc hk hlt
      rw [dfs_succ]
      by_cases h1 : tid ∈ stack
      · rw [if_pos h1]; rfl
      · rw [if_neg h1]
        by_cases h2 : tid ∈ visited
        · rw [if_pos h2]; rfl
        · rw [if_neg h2]
          refine ihn.2 m _ _ _ _ hc (depsOf_subset_keys hc tid) ?_
          have := unvis_cons_lt m hk h2
          omega
    refine ⟨hdfs, ?_⟩
    intro m ds
    induction ds with
    | nil =>
      intro visited stack marked _ _ _
      rw [dfsList_nil]; rfl
    | cons d ds ih =>
      intro visited stack marked hc hds hlt
      have hsome := hdfs m d visited stack marked hc (hds d (List.mem_cons_self d ds)) hlt
      cases hd : dfs (n + 1) m d visited stack marked with
      | none => rw [hd] at hsome; exact absurd hsome (by simp)
      | some p =>
        obtain ⟨v1, mk1⟩ := p
        rw [dfsList_cons_some _ m ds hd]
        have hsub := ((dfs_mono (n + 1)).1 m d visited stack marked v1 mk1 hd).1
        refine ih v1 stack mk1 hc (fun x hx => hds x (List.mem_cons_of_mem _ hx)) ?_
        have := unvis_le_of_subset m hsub
        omega

theorem detectCyclesAux_isSome {m : TaskMap} (hc : closedMap m) :
    ∀ (ks : List Int) (visited marked : List Int), (∀ k ∈ ks, k ∈ keysOf m) →
      (detectCyclesAux m ks visited marked).isSome := by
  intro ks
  induction ks with
  | nil => intro visited marked _; rfl
  | cons k ks ih =>
    intro visited marked hks
    unfold detectCyclesAux
    by_cases h1 : k ∈ visited
    · rw [if_pos h1]
      exact ih visited marked fun x hx => hks x (List.mem_cons_of_mem _ hx)
    · rw [if_neg h1]
      have hlt : unvis m visited < m.length + 1 := by
        have : unvis m visited ≤ (keysOf m).length := by
          unfold unvis
          exact List.length_filter_le _ _
        have : (keysOf m).length = m.length := by simp [keysOf]
        omega
      have hsome := (dfs_isSome (m.length + 1)).1 m k visited [] marked hc
        (hks k (List.mem_cons_self k ks)) hlt
      cases hd : dfs (m.length + 1) m k visited [] marked with
      | none => rw [hd] at hsome; exact absurd hsome (by simp)
      | some p =>
        obtain ⟨v1, mk1⟩ := p
        exact ih v1 mk1 fun x hx => hks x (List.mem_cons_of_mem _ hx)

theorem detectCycles_isSome_of_closed {m : TaskMap} (hc : closedMap m) :
    (detectCycles m).isSome := by
  unfold detectCycles
  have haux := detectCyclesAux_isSome hc (keysOf m) [] [] fun k hk => hk
  cases h2 : detectCyclesAux m (keysOf m) [] [] with
  | none => rw [h2] at haux; exact absurd haux (by simp)
  | some p => rfl

/-! ### Claim theorems: cycle-detector termination (C7) -/

/-- C7: on every finite task map whose dependency lists refer only to
keys of the map, the depth-first cycle detection terminates: the
recursion-depth fuel `|task_map| + 1` is never exhausted (each id is
pushed at most once before being marked visited), even when the graph
contains cycles. -/
theorem cycle_detector_terminates (m : TaskMap) (h : closedMap m) :
    (detectCycles m).isSome :=
  detectCycles_isSome_of_closed h

/-- Witness for C7: the detector terminates on the cyclic ring map. -/
theorem cycle_detector_terminates_witness :
    (detectCycles (buildTaskMap ringTasks)).isSome :=
  cycle_detector_terminates (buildTaskMap ringTasks)
    (buildTaskMap_closed ringTasks)

/-! ### DFS: every expanded task that depends on itself gets marked -/

theorem dfsList_marks_of_mem_stack (fuel : Nat) (m : TaskMap) :
    ∀ (ds : List Int) (visited stack marked v mk : List Int),
      dfsList fuel m ds visited stack marked = some (v, mk) →
      ∀ j ∈ ds, j ∈ stack → j ∈ mk := by
  intro ds
  induction ds with
  | nil =>
    intro visited stack marked v mk _ j hj _
    exact absurd hj (List.not_mem_nil j)
  | cons d ds ih =>
    intro visited stack marked v mk h j hj hjst
    cases hd : dfs fuel m d visited stack marked with
    | none =>
      rw [dfsList_cons_none fuel m ds hd] at h
      exact absurd h (by simp)
    | some p =>
      obtain ⟨v1, mk1⟩ := p
      rw [dfsList_cons_some fuel m ds hd] at h
      rcases List.mem_cons.1 hj with rfl | hj2
      · cases fuel with
        | zero => exact absurd hd (by simp [dfs])
        | succ n =>
          rw [dfs_succ, if_pos hjst] at hd
          cases Option.some.inj hd
          exact ((dfs_mono (n + 1)).2 m ds _ _ _ _ _ h).2
            (List.mem_append_right marked hjst)
      · exact ih _ _ _ _ _ h j hj2 hjst

theorem dfs_selfMarked : ∀ fuel : Nat,
    (∀ m tid visited stack marked v mk,
      dfs fuel m tid visited stack marked = some (v, mk) →
      SelfMarked m visited stack marked → SelfMarked m v stack mk) ∧
    (∀ m ds visited stack marked v mk,
      dfsList fuel m ds visited stack marked = some (v, mk) →
      SelfMarked m visited stack marked → SelfMarked m v stack mk) := by
  intro fuel
  induction fuel with
  | zero =>
    constructor
    · intro m tid visited stack marked v mk h
      exact absurd h (by simp [dfs])
    · intro m ds
      induction ds with
      | nil =>
        intro visited stack marked v mk h hs
        rw [dfsList_nil] at h
        cases Option.some.inj h
        exact hs
      | cons d ds ih =>
        intro visited stack marked v mk h _
        rw [dfsList_cons_none 0 m ds rfl] at h
        exact absurd h (by simp)
  | succ n ihn =>
    have hdfs : ∀ m tid visited stack marked v mk,
        dfs (n + 1) m tid visited stack marked = some (v, mk) →
        SelfMarked m visited stack marked → SelfMarked m v stack mk := by
      intro m tid visited stack marked v mk h hs
      rw [dfs_succ] at h
      by_cases h1 : tid ∈ stack
      · rw [if_pos h1] at h
        cases Option.some.inj h
        intro k hk hkst hself
        exact List.mem_append_left _ (hs k hk hkst hself)
      · rw [if_neg h1] at h
        by_cases h2 : tid ∈ visited
        · rw [if_pos h2] at h
          cases Option.some.inj h
          exact hs
        · rw [if_neg h2] at h
          have hs0 : SelfMarked m (tid :: visited) (tid :: stack) marked := by
            intro k hk hkst hself
            rcases List.mem_cons.1 hk with rfl | hk2
            · exact absurd (List.mem_cons_self _ _) hkst
            · exact hs k hk2 (fun hm => hkst (List.mem_cons_of_mem _ hm)) hself
          have hmid := ihn.2 m _ _ _ _ _ _ h hs0
          intro k hk hkst hself
          by_cases hkt : k = tid
          · subst hkt
            exact dfsList_marks_of_mem_stack n m (depsOf m k) _ _ _ _ _ h k
              hself (List.mem_cons_self _ _)
          · refine hmid k hk ?_ hself
            intro hm
            rcases List.mem_cons.1 hm with h' | h'
            · exact hkt h'
            · exact hkst h'
    refine ⟨hdfs, ?_⟩
    intro m ds
    induction ds with
    | nil =>
      intro visited stack marked v mk h hs
      rw [dfsList_nil] at h
      cases Option.some.inj h
      exact hs
    | cons d ds ih =>
      intro visited stack marked v mk h hs
      cases hd : dfs (n + 1) m d visited stack marked with
      | none =>
        rw [dfsList_cons_none _ m ds hd] at h
        exact absurd h (by simp)
      | some p =>
        obtain ⟨v1, mk1⟩ := p
        rw [dfsList_cons_some _ m ds hd] at h
        exact ih _ _ _ _ _ h (hdfs m d visited stack marked v1 mk1 hd hs)

theorem dfs_visits {fuel : Nat} {m : TaskMap} {tid : Int}
    {visited stack marked v mk : List Int}
    (h : dfs fuel m tid visited stack marked = some (v, mk))
    (hst : tid ∉ stack) : tid ∈ v := by
  cases fuel with
  | zero => exact absurd h (by simp [dfs])
  | succ n =>
    rw [dfs_succ, if_neg hst] at h
    by_cases h2 : tid ∈ visited
    · rw [if_pos h2] at h
      cases Option.some.inj h
      exact h2
    · rw [if_neg h2] at h
      exact ((dfs_mono n).2 m _ _ _ _ _ _ h).1 (List.mem_cons_self _ _)

theorem detectCyclesAux_selfMarked (m : TaskMap) :
    ∀ (ks visited marked v mk : List Int),
      detectCyclesAux m ks visited marked = some (v, mk) →
      SelfMarked m visited [] marked → SelfMarked m v [] mk := by
  intro ks
  induction ks with
  | nil =>
    intro visited marked v mk h hs
    cases Option.some.inj h
    exact hs
  | cons k ks ih =>
    intro visited marked v mk h hs
    unfold detectCyclesAux at h
    by_cases h1 : k ∈ visited
    · rw [if_pos h1] at h
      exact ih _ _ _ _ h hs
    · rw [if_neg h1] at h
      cases hd : dfs (m.length + 1) m k visited [] marked with
      | none => rw [hd] at h; exact absurd h (by simp)
      | some p =>
        obtain ⟨v1, mk1⟩ := p
        rw [hd] at h
        exact ih _ _ _ _ h
          ((dfs_selfMarked (m.length + 1)).1 m k visited [] marked v1 mk1 hd hs)

theorem detectCyclesAux_visits (m : TaskMap) :
    ∀ (ks visited marked v mk : List Int),
      detectCyclesAux m ks visited marked = some (v, mk) →
      (∀ k ∈ ks, k ∈ v) ∧ visited ⊆ v := by
  intro ks
  induction ks with
  | nil =>
    intro visited marked v mk h
    cases Option.some.inj h
    exact ⟨fun k hk => absurd hk (List.not_mem_nil k), List.Subset.refl _⟩
  | cons k ks ih =>
    intro visited marked v mk h
    unfold detectCyclesAux at h
    by_cases h1 : k ∈ visited
    · rw [if_pos h1] at h
      obtain ⟨hks, hsub⟩ := ih _ _ _ _ h
      refine ⟨fun x hx => ?_, hsub⟩
      rcases List.mem_cons.1 hx with rfl | hx2
      · exact hsub h1
      · exact hks x hx2
    · rw [if_neg h1] at h
      cases hd : dfs (m.length + 1) m k visited [] marked with
      | none => rw [hd] at h; exact absurd h (by simp)
      | some p =>
        obtain ⟨v1, mk1⟩ := p
        rw [hd] at h
        obtain ⟨hks, hsub⟩ := ih _ _ _ _ h
        have hk1 : k ∈ v1 := dfs_visits hd (List.not_mem_nil k)
        have hv1 : visited ⊆ v1 :=
          ((dfs_mono (m.length + 1)).1 m _ _ _ _ _ _ hd).1
        refine ⟨fun x hx => ?_, hv1.trans hsub⟩
        rcases List.mem_cons.1 hx with rfl | hx2
        · exact hsub hk1
        · exact hks x hx2

/-- Every key whose (cleaned) dependency list contains the key itself is
marked by `_detect_cycles`. -/
theorem detectCycles_self_marked {m : TaskMap} {mk : List Int}
    (h : detectCycles m = some mk) :
    ∀ k ∈ keysOf m, k ∈ depsOf m k → k ∈ mk := by
  unfold detectCycles at h
  cases haux : detectCyclesAux m (keysOf m) [] [] with
  | none => rw [haux] at h; exact absurd h (by simp)
  | some p =>
    obtain ⟨v, mk'⟩ := p
    rw [haux] at h
    have hmk : mk' = mk := by simpa using h
    subst hmk
    intro k hk hself
    have hs := detectCyclesAux_selfMarked m (keysOf m) [] [] v mk' haux
      (fun k hk => absurd hk (List.not_mem_nil k))
    have hv := (detectCyclesAux_visits m (keysOf m) [] [] v mk' haux).1
    exact hs k (hv k hk) (List.not_mem_nil k) hself

/-! ### Claim theorems: ranking (C3) -/

theorem round3_mono {x y : ℚ} (h : x ≤ y) : round3 x ≤ round3 y := by
  unfold round3
  have h2 : round (1000 * x) ≤ round (1000 * y) := by
    rw [round_eq, round_eq]
    exact Int.floor_mono (by linarith)
  have h3 : ((round (1000 * x) : ℤ) : ℚ) ≤ ((round (1000 * y) : ℤ) : ℚ) := by
    exact_mod_cast h2
  linarith

theorem scoredPairs_snd_score (tasks : List RawTask) (s : String)
    (today : Int) : ∀ p ∈ scoredPairs tasks s today, p.2.score = round3 p.1 := by
  intro p hp
  rcases List.mem_map.1 hp with ⟨q, _, rfl⟩
  rfl

/-- C3 counterexample: at `c3Tasks` the two outputs have equal rounded
`score` fields (both 0.542) but the first has the *later* due date: the
sort key uses the unrounded score (which differs), so the claimed
tie-break on the output score field fails. -/
theorem ranking_counterexample :
    ¬ (score_tasks c3Tasks "smart_balance" 0).Pairwise roundedRel := by
  decide

/-- C3 (amended): the output is sorted by *unrounded* score descending,
with ties broken by due date ascending (missing = latest), then
importance descending; the rounded output score field is therefore also
non-increasing, and entries tying on all three keys keep their original
relative order (the sort is stable).  The tie-breaks apply to ties of the
unrounded score, not of the rounded output field. -/
theorem ranking_order (tasks : List RawTask) (s : String) (today : Int) :
    (rankedPairs tasks s today).Pairwise rankRel ∧
    score_tasks tasks s today = (rankedPairs tasks s today).map (·.2) ∧
    (score_tasks tasks s today).Pairwise (fun u v => v.score ≤ u.score) ∧
    ∀ a b, sortLe a b = true → sortLe b a = true →
      List.Sublist [a, b] (scoredPairs tasks s today) →
      List.Sublist [a, b] (rankedPairs tasks s today) := by
  have hpair : (rankedPairs tasks s today).Pairwise
      (fun a b => sortLe a b = true) :=
    pairwise_sortS sortLe_trans sortLe_total _
  refine ⟨hpair.imp fun h => (sortLe_iff_rankRel _ _).1 h, rfl, ?_,
    fun a b hab _ hsub => sortS_pair_stable hab hsub⟩
  have hperm : ∀ p ∈ rankedPairs tasks s today, p.2.score = round3 p.1 :=
    fun p hp => scoredPairs_snd_score tasks s today p (mem_sortS.1 hp)
  rw [score_tasks, List.pairwise_map]
  refine List.Pairwise.imp_of_mem ?_ hpair
  intro a b ha hb hle
  rw [hperm a ha, hperm b hb]
  rcases (sortLe_iff_rankRel _ _).1 hle with h | ⟨h, _⟩
  · exact round3_mono h.le
  · exact round3_mono h.ge

/-- Witness for C3: the ranking properties at a concrete input, with the
stability clause instantiated at a concrete tied pair. -/
theorem ranking_order_witness :
    (rankedPairs ringTasks "smart_balance" 0).Pairwise rankRel ∧
    (score_tasks ringTasks "smart_balance" 0).Pairwise
      (fun u v => v.score ≤ u.score) :=
  ⟨(ranking_order ringTasks "smart_balance" 0).1,
   (ranking_order ringTasks "smart_balance" 0).2.2.1⟩

/-! ### Keys of the built map are distinct; lookups find the entry -/

theorem keysOf_insertAssoc_nodup {m : TaskMap} {k : Int} (v : TaskData)
    (h : (keysOf m).Nodup) : (keysOf (insertAssoc m k v)).Nodup := by
  by_cases hk : k ∈ keysOf m
  · rw [keysOf_insertAssoc_mem v hk]; exact h
  · rw [keysOf_insertAssoc_new v hk]
    refine h.append (List.nodup_singleton k) ?_
    intro a ha hb
    rw [List.mem_singleton] at hb
    subst hb
    exact hk ha

theorem keysOf_buildRawAux_nodup :
    ∀ (tasks : List RawTask) (m : TaskMap) (nid : Int),
      (keysOf m).Nodup → (keysOf (buildRawAux tasks m nid)).Nodup
  | [], _, _, h => h
  | r :: rest, m, nid, h => by
    cases hid : r.id with
    | some tid =>
      simp only [buildRawAux, hid]
      exact keysOf_buildRawAux_nodup rest _ nid (keysOf_insertAssoc_nodup _ h)
    | none =>
      simp only [buildRawAux, hid]
      exact keysOf_buildRawAux_nodup rest _ (nid + 1) (keysOf_insertAssoc_nodup _ h)

theorem keysOf_buildRaw_nodup (tasks : List RawTask) :
    (keysOf (buildRaw tasks)).Nodup :=
  keysOf_buildRawAux_nodup tasks [] 1 (by simp [keysOf])

theorem keysOf_buildTaskMap_nodup (tasks : List RawTask) :
    (keysOf (buildTaskMap tasks)).Nodup := by
  rw [buildTaskMap, keysOf_cleanMap]
  exact keysOf_buildRaw_nodup tasks

theorem find?_eq_of_mem_nodup :
    ∀ {m : TaskMap}, (keysOf m).Nodup → ∀ {k : Int} {t : TaskData},
      (k, t) ∈ m → m.find? (fun p => p.1 = k) = some (k, t) := by
  intro m
  induction m with
  | nil => intro _ k t h; exact absurd h (List.not_mem_nil _)
  | cons q m ih =>
    intro hn k t h
    rcases List.mem_cons.1 h with rfl | h2
    · exact List.find?_cons_of_pos _ (by simp)
    · have hq : q.1 ∉ keysOf m := (List.nodup_cons.1 hn).1
      have hk : k ∈ keysOf m := List.mem_map.2 ⟨(k, t), h2, rfl⟩
      have hne : ¬(q.1 = k) := fun he => hq (he ▸ hk)
      rw [List.find?_cons_of_neg _ (by simpa using hne)]
      exact ih (List.nodup_cons.1 hn).2 h2

theorem depsOf_buildTaskMap {tasks : List RawTask} {k : Int} {t : TaskData}
    (h : (k, t) ∈ buildTaskMap tasks) :
    depsOf (buildTaskMap tasks) k = t.dependencies := by
  unfold depsOf
  rw [find?_eq_of_mem_nodup (keysOf_buildTaskMap_nodup tasks) h]

/-! ### Claim theorems: self-dependency (C9) -/

theorem appliedMap_eq (tasks : List RawTask) {mkd : List Int}
    (h : detectCycles (buildTaskMap tasks) = some mkd) :
    appliedMap tasks = applyCycles (buildTaskMap tasks) mkd := by
  show applyCycles (buildTaskMap tasks)
    ((detectCycles (buildTaskMap tasks)).getD []) = _
  rw [h]
  rfl

theorem dependencyScore_ge_of_pos {n : Nat} (h : 1 ≤ n) :
    2/5 ≤ dependencyScore n := by
  unfold dependencyScore
  rw [if_neg (by omega)]
  refine le_min (by norm_num) ?_
  have : (1:ℚ) ≤ (n : ℚ) := by exact_mod_cast h
  linarith

/-- C9: a task whose dependency list contains its own id keeps that
self-reference through cleaning (its id is a key of the map), is marked a
cycle member with the "Circular dependency detected." issue (also visible
on its output), and every self-occurrence counts towards its own
reverse-dependency count, giving a dependency sub-score of at least 0.4. -/
theorem self_dependency (tasks : List RawTask) (s : String) (today : Int)
    (k : Int) (t : TaskData) (hmem : (k, t) ∈ buildRaw tasks)
    (hself : k ∈ t.dependencies) :
    (∃ t1, (k, t1) ∈ buildTaskMap tasks ∧ k ∈ t1.dependencies ∧
      t1.dependencies.count k = t.dependencies.count k) ∧
    (∃ t2, (k, t2) ∈ appliedMap tasks ∧ t2.cycle_member = true ∧
      cycleMsg ∈ t2.issues) ∧
    t.dependencies.count k ≤ revCount (appliedMap tasks) k ∧
    2/5 ≤ dependencyScore (revCount (appliedMap tasks) k) ∧
    (∃ out ∈ score_tasks tasks s today, out.id = k ∧ cycleMsg ∈ out.issues) := by
  have hkkeys : k ∈ keysOf (buildRaw tasks) := List.mem_map.2 ⟨(k, t), hmem, rfl⟩
  set t1 := cleanTask (keysOf (buildRaw tasks)) t with ht1
  have hmem1 : (k, t1) ∈ buildTaskMap tasks :=
    List.mem_map.2 ⟨(k, t), hmem, rfl⟩
  have hself1 : k ∈ t1.dependencies := by
    rw [ht1]
    simp only [cleanTask, List.mem_filter, decide_eq_true_eq]
    exact ⟨hself, hkkeys⟩
  have hcount1 : t1.dependencies.count k = t.dependencies.count k := by
    rw [ht1]
    simp only [cleanTask]
    exact List.count_filter (by simpa using hkkeys)
  -- the detector succeeds and marks k
  obtain ⟨mkd, hmkd⟩ := Option.isSome_iff_exists.1
    (detectCycles_isSome_of_closed (buildTaskMap_closed tasks))
  have hkbtm : k ∈ keysOf (buildTaskMap tasks) := by
    rw [buildTaskMap, keysOf_cleanMap]; exact hkkeys
  have hkmkd : k ∈ mkd := by
    refine detectCycles_self_marked hmkd k hkbtm ?_
    rw [depsOf_buildTaskMap hmem1]
    exact hself1
  -- the applied map entry
  set t2 : TaskData :=
    { t1 with
      cycle_member := true
      issues := if cycleMsg ∈ t1.issues then t1.issues
                else t1.issues ++ [cycleMsg] } with ht2
  have hmem2 : (k, t2) ∈ appliedMap tasks := by
    rw [appliedMap_eq tasks hmkd]
    unfold applyCycles
    refine List.mem_map.2 ⟨(k, t1), hmem1, ?_⟩
    rw [if_pos (show (k, t1).1 ∈ mkd by simpa using hkmkd)]
  have hiss2 : cycleMsg ∈ t2.issues := by
    rw [ht2]
    by_cases hc : cycleMsg ∈ t1.issues
    · simpa [hc] using hc
    · simp [hc]
  have hdeps2 : t2.dependencies = t1.dependencies := rfl
  -- reverse-dependency count
  have hkapp : k ∈ keysOf (appliedMap tasks) := by
    rw [appliedMap_eq tasks hmkd, keysOf_applyCycles]
    exact hkbtm
  have hcount : t.dependencies.count k ≤ revCount (appliedMap tasks) k := by
    unfold revCount
    rw [if_pos hkapp]
    have hmemc : t2.dependencies.count k ∈
        (appliedMap tasks).map (fun p => p.2.dependencies.count k) :=
      List.mem_map.2 ⟨(k, t2), hmem2, rfl⟩
    calc t.dependencies.count k = t2.dependencies.count k := by
          rw [hdeps2, hcount1]
      _ ≤ _ := List.le_sum_of_mem hmemc
  have hds : 2/5 ≤ dependencyScore (revCount (appliedMap tasks) k) := by
    refine dependencyScore_ge_of_pos ?_
    have h1 : 1 ≤ t.dependencies.count k := List.one_le_count_iff.2 hself
    omega
  refine ⟨⟨t1, hmem1, hself1, hcount1⟩, ⟨t2, hmem2, rfl, hiss2⟩, hcount, hds, ?_⟩
  refine ⟨(scoreOne s today (appliedMap tasks) t2).2,
    mem_score_tasks_iff.2 ⟨(k, t2), hmem2, rfl⟩, ?_, ?_⟩
  · rw [scoreOne_id]
    exact (appliedMap_fst_eq_id (k, t2) hmem2).symm
  · rw [scoreOne_issues]
    exact hiss2

/-- Witness for C9: the single task 7 depending only on itself; its
reverse-dependency count is exactly 1, the dependency sub-score is
exactly 0.4, and the explanation gains a "Blocks 1 other task(s)."
clause. -/
theorem self_dependency_witness :
    (∃ out ∈ score_tasks selfTasks "smart_balance" 0,
      out.id = 7 ∧ cycleMsg ∈ out.issues) ∧
    revCount (appliedMap selfTasks) 7 = 1 ∧
    dependencyScore 1 = 2/5 ∧
    ∀ p ∈ appliedMap selfTasks,
      blocksClause 1 ∈ explanationParts "smart_balance" 0 p.2
        (revCount (appliedMap selfTasks) p.2.id) :=
  ⟨(self_dependency selfTasks "smart_balance" 0 7
      ⟨7, "S", none, 1, 5, [7], [], false⟩ (by decide) (by decide)).2.2.2.2,
   by decide, by decide, by decide⟩

/-! ### Claim theorems: estimated_hours pass-through (C10) -/

/-- C10: a present but non-positive estimated_hours value is stored,
output, and reported in the explanation unchanged; only the
effort-desirability sub-score substitutes 1.0 hour (so it equals
`effortDesirability 1 = 0.8`), and the final score is computed from the
stored raw value through that substitution. -/
theorem hours_passthrough (tasks : List RawTask) (s : String) (today : Int) :
    (∀ h : ℚ, h ≤ 0 →
      effortDesirability h = effortDesirability 1 ∧ effortDesirability h = 4/5) ∧
    (∀ (r : RawTask) (tid : Int) (h : ℚ), r.estimated_hours = some h →
      (mkTask tid r).estimated_hours = h) ∧
    (∀ p ∈ appliedMap tasks, ∃ t0, (p.1, t0) ∈ buildRaw tasks ∧
      p.2.estimated_hours = t0.estimated_hours) ∧
    (∀ p ∈ appliedMap tasks, ∃ out ∈ score_tasks tasks s today,
      out.id = p.2.id ∧ out.estimated_hours = p.2.estimated_hours ∧
      effortClause p.2.estimated_hours ∈
        explanationParts s today p.2 (revCount (appliedMap tasks) p.2.id) ∧
      out.explanation = String.intercalate " "
        (explanationParts s today p.2 (revCount (appliedMap tasks) p.2.id)) ∧
      out.score = round3 (taskScore s today p.2.due_date p.2.importance
        p.2.estimated_hours (revCount (appliedMap tasks) p.2.id)
        p.2.cycle_member)) := by
  refine ⟨?_, ?_, ?_, ?_⟩
  · intro h hle
    constructor
    · unfold effortDesirability
      rw [if_pos hle, if_neg (by norm_num : ¬((1:ℚ) ≤ 0))]
    · unfold effortDesirability
      rw [if_pos hle]
      norm_num
  · intro r tid h hr
    simp [mkTask, hr]
  · intro p hp
    rcases mem_applyCycles_iff.1 hp with ⟨q, hq, rfl⟩
    rcases mem_cleanMap_iff.1 hq with ⟨q0, hq0, rfl⟩
    by_cases h : q0.1 ∈ (detectCycles (buildTaskMap tasks)).getD []
    · rw [if_pos h]
      exact ⟨q0.2, by simpa using hq0, rfl⟩
    · rw [if_neg h]
      exact ⟨q0.2, by simpa using hq0, rfl⟩
  · intro p hp
    refine ⟨(scoreOne s today (appliedMap tasks) p.2).2,
      mem_score_tasks_iff.2 ⟨p, hp, rfl⟩,
      scoreOne_id .., scoreOne_hours .., ?_, scoreOne_explanation ..,
      scoreOne_score ..⟩
    simp [explanationParts]

/-- Witness for C10: a task with estimated_hours −3 keeps −3 in its
record while the effort sub-score uses 1.0h. -/
theorem hours_passthrough_witness :
    effortDesirability (-3) = 4/5 ∧
    (∀ p ∈ appliedMap negHoursTasks, p.2.estimated_hours = -3) ∧
    (∀ out ∈ score_tasks negHoursTasks "smart_balance" 0,
      out.estimated_hours = -3) :=
  ⟨((hours_passthrough negHoursTasks "smart_balance" 0).1 (-3)
      (by norm_num)).2, by decide, by decide⟩

/-- Witness for C4: task 3 of `blkTasks` is depended upon by tasks 1
and 2. -/
theorem blocking_count_witness :
    dependencyScore (revCount (appliedMap blkTasks) 3) = 1/2 ∧
    ∃ out ∈ score_tasks blkTasks "smart_balance" 0, out.id = 3 ∧
      out.explanation = String.intercalate " "
        (explanationParts "smart_balance" 0 ⟨3, "C", none, 1, 5, [], [], false⟩
          (revCount (appliedMap blkTasks) 3)) ∧
      blocksClause 2 ∈ explanationParts "smart_balance" 0
        ⟨3, "C", none, 1, 5, [], [], false⟩ (revCount (appliedMap blkTasks) 3) :=
  blocking_count blkTasks "smart_balance" 0 3 ⟨3, "C", none, 1, 5, [], [], false⟩
    (by decide) (by decide)

end TaskAnalyzer
